import Mathlib

/-!
Verification of the mhist per-session terminal multiplexer core.

Each definition below is a shallow embedding of the corresponding Go
function of the repository (protocol.go, session.go, client.go, mouse.go,
and the scrollback ring buffer).  Bytes are modelled as `Nat` (values
0..255 on the wire), byte strings as `List Nat`, Go slices of mutable
cells as functions `Nat → _`, and fallible operations as `Option`.
Go `int` arithmetic that is non-negative on every reachable input is
rendered with `Nat` arithmetic; each such spot carries a comment.
-/

namespace Mhist

/-! ## Wire codec (protocol.go) -/

/-- Message type constants, from protocol.go. -/
def MsgData : Nat := 0x01
def MsgResize : Nat := 0x02
def MsgDetach : Nat := 0x03
def MsgKill : Nat := 0x04
def MsgHistoryRequest : Nat := 0x05
def MsgHistoryResponse : Nat := 0x06

/-- A wire protocol message: single-octet kind plus opaque payload
(protocol.go, `type Message struct`). -/
structure Message where
  type : Nat
  payload : List Nat
  deriving DecidableEq, Repr

/-- Big-endian 4-octet encoding of a `Nat`, as produced by Go's
`binary.BigEndian.PutUint32(buf, uint32 n)`: the `uint32` conversion
truncates to `n % 2^32`, and each octet extraction below already reduces
modulo 256, so this models the truncating conversion for every `n`. -/
def be32 (n : Nat) : List Nat :=
  [n / 2 ^ 24 % 256, n / 2 ^ 16 % 256, n / 2 ^ 8 % 256, n % 256]

/-- Big-endian 4-octet read, as in Go's `binary.BigEndian.Uint32`,
reading the first four octets of `l` (call sites guarantee `4 ≤ l.length`;
absent octets read as 0). -/
def readU32 (l : List Nat) : Nat :=
  ((l.getD 0 0 * 256 + l.getD 1 0) * 256 + l.getD 2 0) * 256 + l.getD 3 0

/-- `Encode` from protocol.go: one kind octet, 4-octet big-endian payload
length (`uint32(len(msg.Payload))`, i.e. the length modulo `2^32`), then
the payload octets. -/
def Encode (msg : Message) : List Nat :=
  msg.type :: be32 msg.payload.length ++ msg.payload

/-- `Decode` from protocol.go, with the `io.Reader` modelled as the list
of octets remaining on the stream.  Reads a 5-octet header (failing when
the stream ends first, Go's short-read error), then exactly `len` payload
octets (again failing on a short stream).  Returns the message and the
rest of the stream. -/
def Decode : List Nat → Option (Message × List Nat)
  | t :: a :: b :: c :: d :: rest =>
    let len := ((a * 256 + b) * 256 + c) * 256 + d
    if rest.length < len then none
    else some (⟨t, rest.take len⟩, rest.drop len)
  | _ => none

/-- Repeated decoding: run `Decode` `fuel` times on the stream, expecting
it to be exhausted at the end.  Models feeding one concatenated byte
stream to successive `Decode` calls. -/
def decodeAll : Nat → List Nat → Option (List Message)
  | 0, input => if input = [] then some [] else none
  | fuel + 1, input =>
    if input = [] then some [] else
      match Decode input with
      | none => none
      | some (m, rest) => (decodeAll fuel rest).map (fun ms => m :: ms)

theorem be32_cons (n : Nat) :
    be32 n = n / 2 ^ 24 % 256 :: n / 2 ^ 16 % 256 :: n / 2 ^ 8 % 256 :: n % 256 :: [] := rfl

theorem Decode_Encode_append (m : Message) (rest : List Nat)
    (h : m.payload.length < 2 ^ 32) :
    Decode (Encode m ++ rest) = some (m, rest) := by
  obtain ⟨t, p⟩ := m
  simp only [Encode, be32_cons] at *
  have hlen : ((p.length / 2 ^ 24 % 256 * 256 + p.length / 2 ^ 16 % 256) * 256
      + p.length / 2 ^ 8 % 256) * 256 + p.length % 256 = p.length := by omega
  simp only [List.cons_append, List.nil_append, Decode, hlen]
  rw [if_neg (by simp), List.take_left, List.drop_left]

theorem Decode_short_of_frame_truncation (m : Message) (pre suffix : List Nat)
    (hsplit : pre ++ suffix = Encode m)
    (hshort : pre.length < 5 + m.payload.length)
    (h : m.payload.length < 2 ^ 32) :
    Decode pre = none := by
  obtain ⟨t, p⟩ := m
  have hp : p.length < 2 ^ 32 := h
  simp only [Encode, be32_cons, List.cons_append, List.nil_append] at hsplit
  rcases pre with _ | ⟨b0, _ | ⟨b1, _ | ⟨b2, _ | ⟨b3, _ | ⟨b4, r⟩⟩⟩⟩⟩
  · rfl
  · rfl
  · rfl
  · rfl
  · rfl
  · simp only [List.cons_append, List.cons.injEq] at hsplit
    obtain ⟨h0, h1, h2, h3, h4, hr⟩ := hsplit
    subst h0; subst h1; subst h2; subst h3; subst h4
    simp only [List.length_cons] at hshort
    simp only [Decode]
    rw [if_pos (by omega)]

theorem Encode_ne_nil (m : Message) : Encode m ≠ [] := by
  simp [Encode]

theorem decodeAll_encode (msgs : List Message)
    (h : ∀ m ∈ msgs, m.payload.length < 2 ^ 32) :
    decodeAll msgs.length (List.flatten (msgs.map Encode)) = some msgs := by
  induction msgs with
  | nil => rfl
  | cons m ms ih =>
    have hm : m.payload.length < 2 ^ 32 := h m (List.mem_cons_self m ms)
    have hms : ∀ x ∈ ms, x.payload.length < 2 ^ 32 :=
      fun x hx => h x (List.mem_cons_of_mem m hx)
    simp only [List.map_cons, List.flatten_cons, List.length_cons, decodeAll]
    rw [if_neg (by simp [Encode]), Decode_Encode_append m _ hm]
    show (decodeAll ms.length (List.flatten (ms.map Encode))).map (fun l => m :: l)
      = some (m :: ms)
    rw [ih hms]
    rfl

/-- C2: the codec round-trips every message whose payload length is below
`2^32`; decoding any truncation of an encoded frame (fewer than
`5 + |p|` octets) fails with the short-read error; and a concatenation of
encoded messages fed to successive `Decode` calls yields the original
messages in order with the stream exhausted. -/
theorem protocol_roundtrip_short_read_concat :
    (∀ (k : Nat) (p : List Nat) (rest : List Nat), p.length < 2 ^ 32 →
      Decode (Encode ⟨k, p⟩ ++ rest) = some (⟨k, p⟩, rest)) ∧
    (∀ (k : Nat) (p : List Nat) (pre suffix : List Nat), p.length < 2 ^ 32 →
      pre ++ suffix = Encode ⟨k, p⟩ → pre.length < 5 + p.length →
      Decode pre = none) ∧
    (∀ msgs : List Message, (∀ m ∈ msgs, m.payload.length < 2 ^ 32) →
      decodeAll msgs.length (List.flatten (msgs.map Encode)) = some msgs) := by
  refine ⟨fun k p rest h => Decode_Encode_append ⟨k, p⟩ rest h,
    fun k p pre suffix h hsplit hshort =>
      Decode_short_of_frame_truncation ⟨k, p⟩ pre suffix hsplit hshort h,
    decodeAll_encode⟩

/-- C2 witness: the round-trip, truncation failure, and concatenation at
concrete inputs (the RESIZE example of the spec). -/
theorem protocol_roundtrip_short_read_concat_witness :
    Decode (Encode ⟨2, [0, 24, 0, 80]⟩ ++ []) = some (⟨2, [0, 24, 0, 80]⟩, []) ∧
    Decode [2, 0, 0, 0, 4, 0, 24] = none ∧
    decodeAll 2 (List.flatten ([⟨2, [0, 24, 0, 80]⟩, ⟨3, []⟩].map Encode)) =
      some [⟨2, [0, 24, 0, 80]⟩, ⟨3, []⟩] := by
  refine ⟨protocol_roundtrip_short_read_concat.1 2 [0, 24, 0, 80] [] (by decide),
    protocol_roundtrip_short_read_concat.2.1 2 [0, 24, 0, 80]
      [2, 0, 0, 0, 4, 0, 24] [0, 80] (by decide) (by decide) (by decide),
    ?_⟩
  have h := protocol_roundtrip_short_read_concat.2.2
    [⟨2, [0, 24, 0, 80]⟩, ⟨3, []⟩] (by decide)
  exact h

theorem readU32_be32_append (n : Nat) (rest : List Nat) :
    readU32 (be32 n ++ rest) = n % 2 ^ 32 := by
  simp only [be32_cons, List.cons_append, List.nil_append, readU32, List.getD,
    List.get?_cons_zero, List.get?_cons_succ, Option.getD_some]
  omega

/-- C10: when the payload length is at least `2^32`, `Encode` still emits
every payload octet (frame length `5 + |p|`) while the 4-octet length
field holds only `|p| mod 2^32`, so decoding the frame succeeds but
returns a strictly shorter payload with unread octets left on the
stream — the round-trip fails, which is why it needs `|p| < 2^32`. -/
theorem encode_overflow_inconsistent (k : Nat) (p : List Nat)
    (h : 2 ^ 32 ≤ p.length) :
    (Encode ⟨k, p⟩).length = 5 + p.length ∧
    readU32 ((Encode ⟨k, p⟩).drop 1) = p.length % 2 ^ 32 ∧
    Decode (Encode ⟨k, p⟩) =
      some (⟨k, p.take (p.length % 2 ^ 32)⟩, p.drop (p.length % 2 ^ 32)) ∧
    ∀ res : Message × List Nat, Decode (Encode ⟨k, p⟩) = some res →
      res.1 ≠ ⟨k, p⟩ := by
  have hmodlt : p.length % 2 ^ 32 < p.length :=
    lt_of_lt_of_le (Nat.mod_lt _ (by norm_num)) h
  have hlen5 : (Encode ⟨k, p⟩).length = 5 + p.length := by
    simp [Encode, be32]; omega
  have hfield : readU32 ((Encode ⟨k, p⟩).drop 1) = p.length % 2 ^ 32 := by
    simp only [Encode, List.drop_succ_cons, List.drop_zero]
    exact readU32_be32_append p.length p
  have hdec : Decode (Encode ⟨k, p⟩) =
      some (⟨k, p.take (p.length % 2 ^ 32)⟩, p.drop (p.length % 2 ^ 32)) := by
    simp only [Encode, be32_cons, List.cons_append, List.nil_append, Decode]
    have hlen : ((p.length / 2 ^ 24 % 256 * 256 + p.length / 2 ^ 16 % 256) * 256
        + p.length / 2 ^ 8 % 256) * 256 + p.length % 256 = p.length % 2 ^ 32 := by
      omega
    rw [hlen, if_neg (by omega)]
  refine ⟨hlen5, hfield, hdec, fun res hres hcontra => ?_⟩
  rw [hdec] at hres
  have hres' := Option.some.inj hres
  have h1 : res.1 = ⟨k, p.take (p.length % 2 ^ 32)⟩ := by rw [← hres']
  rw [h1, Message.mk.injEq] at hcontra
  have htlen : (p.take (p.length % 2 ^ 32)).length = p.length := by rw [hcontra.2]
  rw [List.length_take] at htlen
  omega

/-- C10 witness: instantiated at a `2^32`-octet payload of zeros. -/
theorem encode_overflow_inconsistent_witness :
    2 ^ 32 ≤ (List.replicate (2 ^ 32) 0).length ∧
    (Decode (Encode ⟨1, List.replicate (2 ^ 32) 0⟩) =
      some (⟨1, (List.replicate (2 ^ 32) 0).take ((List.replicate (2 ^ 32) 0).length % 2 ^ 32)⟩,
        (List.replicate (2 ^ 32) 0).drop ((List.replicate (2 ^ 32) 0).length % 2 ^ 32)) ∧
    ∀ res : Message × List Nat, Decode (Encode ⟨1, List.replicate (2 ^ 32) 0⟩) = some res →
      res.1 ≠ ⟨1, List.replicate (2 ^ 32) 0⟩) := by
  have hlen : 2 ^ 32 ≤ (List.replicate (2 ^ 32) (0 : Nat)).length := by
    rw [List.length_replicate]
  have h := encode_overflow_inconsistent 1 (List.replicate (2 ^ 32) 0) hlen
  exact ⟨hlen, h.2.2.1, h.2.2.2⟩

/-! ## Raw replay ring (session.go: rawBuf / rawHead / rawLen) -/

/-- The raw replay ring of a session: a 64 KiB circular byte buffer.
The Go byte slice `rawBuf` (length 65536) is modelled as a function from
index to octet; `head` is the next write position, `len` the number of
octets stored (session.go fields `rawHead`, `rawLen`). -/
structure RawRing where
  buf : Nat → Nat
  head : Nat
  len : Nat

/-- A fresh ring as allocated in `NewSession`: `make([]byte, 65536)` is
zero-filled, indices start at 0. -/
def freshRaw : RawRing := ⟨fun _ => 0, 0, 0⟩

/-- One iteration of the `for _, b := range data` loop in `readPTY`:
store the byte at `rawHead`, advance `rawHead` modulo the capacity, and
grow `rawLen` up to the capacity. -/
def appendRawByte (r : RawRing) (b : Nat) : RawRing :=
  { buf := fun j => if j = r.head then b else r.buf j
    head := (r.head + 1) % 65536
    len := if r.len < 65536 then r.len + 1 else r.len }

/-- Appending one PTY chunk to the ring (the whole `range data` loop of
`readPTY`). -/
def rawAppendChunk (r : RawRing) (data : List Nat) : RawRing :=
  data.foldl appendRawByte r

/-- The ring state after the PTY reader has consumed the byte stream `S`. -/
def rawOfStream (S : List Nat) : RawRing :=
  S.foldl appendRawByte freshRaw

/-- `startPos := (s.rawHead - s.rawLen + cap) % cap` from `sendRedraw`.
Go evaluates this in `int`; since `rawLen ≤ 65536` on every reachable
state the dividend is non-negative and the `Nat` form below computes the
same value. -/
def rawStart (r : RawRing) : Nat := (r.head + 65536 - r.len) % 65536

/-- The `raw` slice extracted by `sendRedraw`: `rawLen` octets starting
at `startPos`, in logical order. -/
def snapshotRaw (r : RawRing) : List Nat :=
  (List.range r.len).map (fun i => r.buf ((rawStart r + i) % 65536))

/-- `"\x1b[2J\x1b[H"` — clear screen, home cursor (session.go
`sendRedraw`, terminal.go `clearScreen`). -/
def clearSeq : List Nat := [27, 91, 50, 74, 27, 91, 72]

/-- `sendRedraw` from session.go: nothing when the ring is empty,
otherwise a single DATA message carrying the clear-screen escape followed
by the raw replay snapshot. -/
def sendRedraw (r : RawRing) : Option Message :=
  if r.len = 0 then none
  else some ⟨MsgData, clearSeq ++ snapshotRaw r⟩

/-- Ring invariant: after consuming stream `S`, the head is `|S| mod cap`,
the length is `min |S| cap`, and the logical content is the tail of `S`. -/
def RawInv (S : List Nat) (r : RawRing) : Prop :=
  r.head = S.length % 65536 ∧ r.len = min S.length 65536 ∧
  ∀ i, i < r.len → r.buf ((rawStart r + i) % 65536) = S.getD (S.length - r.len + i) 0

theorem rawInv_fresh : RawInv [] freshRaw := by
  refine ⟨rfl, rfl, fun i hi => ?_⟩
  simp [freshRaw] at hi

theorem rawInv_append {S : List Nat} {r : RawRing} (h : RawInv S r) (b : Nat) :
    RawInv (S ++ [b]) (appendRawByte r b) := by
  obtain ⟨hhead, hlen, hbuf⟩ := h
  have hheadlt : r.head < 65536 := by omega
  have hlenle : r.len ≤ 65536 := by omega
  have hlen' : (if r.len < 65536 then r.len + 1 else r.len) = min (S.length + 1) 65536 := by
    split <;> omega
  refine ⟨?_, ?_, ?_⟩
  · simp only [appendRawByte, List.length_append, List.length_singleton]
    omega
  · simp only [appendRawByte, List.length_append, List.length_singleton]
    rw [hlen']
  · intro i hi
    simp only [appendRawByte, hlen'] at hi
    simp only [appendRawByte, rawStart, hlen', List.length_append, List.length_singleton]
    by_cases hj : (((r.head + 1) % 65536 + 65536 - min (S.length + 1) 65536) % 65536 + i)
        % 65536 = r.head
    · rw [if_pos hj]
      have hpos : S.length + 1 - min (S.length + 1) 65536 + i = S.length := by omega
      rw [hpos, List.getD_append_right S [b] 0 S.length (le_refl _), Nat.sub_self]
      rfl
    · rw [if_neg hj]
      have hilt : i < min (S.length + 1) 65536 - 1 := by omega
      have hiold : i + 1 + min S.length 65536 - min (S.length + 1) 65536 < r.len := by
        omega
      have hidx : (((r.head + 1) % 65536 + 65536 - min (S.length + 1) 65536) % 65536 + i)
          % 65536 =
          (rawStart r + (i + 1 + min S.length 65536 - min (S.length + 1) 65536)) % 65536 := by
        simp only [rawStart]
        omega
      rw [hidx, hbuf _ hiold, hlen]
      have hlt : S.length + 1 - min (S.length + 1) 65536 + i < S.length := by omega
      rw [List.getD_append S [b] 0 _ hlt]
      congr 1
      omega

theorem rawInv_ofStream (S : List Nat) : RawInv S (rawOfStream S) := by
  induction S using List.reverseRecOn with
  | nil => exact rawInv_fresh
  | append_singleton S b ih =>
    have : rawOfStream (S ++ [b]) = appendRawByte (rawOfStream S) b := by
      simp [rawOfStream]
    rw [this]
    exact rawInv_append ih b

theorem map_range_getD_eq_drop (S : List Nat) (k n : Nat) (h : k + n = S.length) :
    (List.range n).map (fun i => S.getD (k + i) 0) = S.drop k := by
  apply List.ext_getElem
  · simp; omega
  · intro i h1 h2
    simp only [List.getElem_map, List.getElem_range]
    rw [List.getElem_drop]
    rw [List.getD_eq_getElem]

theorem snapshotRaw_ofStream (S : List Nat) :
    snapshotRaw (rawOfStream S) = S.drop (S.length - min S.length 65536) := by
  obtain ⟨hhead, hlen, hbuf⟩ := rawInv_ofStream S
  unfold snapshotRaw
  rw [hlen]
  calc (List.range (min S.length 65536)).map
        (fun i => (rawOfStream S).buf ((rawStart (rawOfStream S) + i) % 65536))
      = (List.range (min S.length 65536)).map
        (fun i => S.getD (S.length - min S.length 65536 + i) 0) := by
        apply List.map_congr_left
        intro i hi
        rw [List.mem_range] at hi
        rw [hbuf i (hlen ▸ hi), hlen]
    _ = S.drop (S.length - min S.length 65536) := by
        apply map_range_getD_eq_drop
        omega

/-- C5: after the PTY reader has consumed a byte stream (in arbitrary
chunks — chunking does not matter), the redraw sent to a newly attaching
front-end is nothing for the empty stream, and otherwise a single DATA
message whose payload is `ESC[2J ESC[H` followed by the last
`min(|S|, 65536)` bytes of the stream in order; for `|S| ≤ 65536` the
payload is exactly `ESC[2J ESC[H ++ S`. -/
theorem redraw_replays_raw_tail :
    (∀ chunks : List (List Nat),
      chunks.foldl rawAppendChunk freshRaw = rawOfStream chunks.flatten) ∧
    (sendRedraw (rawOfStream []) = none) ∧
    (∀ S : List Nat, S ≠ [] →
      sendRedraw (rawOfStream S) =
        some ⟨MsgData, clearSeq ++ S.drop (S.length - min S.length 65536)⟩) ∧
    (∀ S : List Nat, S ≠ [] → S.length ≤ 65536 →
      sendRedraw (rawOfStream S) = some ⟨MsgData, clearSeq ++ S⟩) := by
  have hchunks : ∀ chunks : List (List Nat),
      chunks.foldl rawAppendChunk freshRaw = rawOfStream chunks.flatten := by
    intro chunks
    rw [rawOfStream, List.foldl_flatten]
    rfl
  have hne : ∀ S : List Nat, S ≠ [] →
      sendRedraw (rawOfStream S) =
        some ⟨MsgData, clearSeq ++ S.drop (S.length - min S.length 65536)⟩ := by
    intro S hS
    obtain ⟨hhead, hlen, hbuf⟩ := rawInv_ofStream S
    have hSlen : 0 < S.length := List.length_pos.mpr hS
    unfold sendRedraw
    rw [if_neg (by omega), snapshotRaw_ofStream]
  refine ⟨hchunks, rfl, hne, fun S hS hle => ?_⟩
  rw [hne S hS]
  congr 1
  rw [min_eq_left hle, Nat.sub_self, List.drop_zero]

/-- C5 witness: the one-byte stream `[65]` produces the clear sequence
followed by that byte. -/
theorem redraw_replays_raw_tail_witness :
    sendRedraw (rawOfStream [65]) = some ⟨MsgData, clearSeq ++ [65]⟩ :=
  redraw_replays_raw_tail.2.2.2 [65] (by decide) (by decide)

/-! ## Scrollback line ring (buffer source file: ScrollbackBuffer) -/

/-- The scrollback line ring.  The Go slice `lines [][]byte` (length
`cap`) is modelled as a function from index to line; `head` is the next
write position, `count` the number of stored lines, `cap` the capacity.
The field `pending` models the Go field holding the incomplete line
written without a trailing LF (named `partial` in the source, which is a
reserved word here). -/
structure ScrollbackBuffer where
  lines : Nat → List Nat
  head : Nat
  count : Nat
  cap : Nat
  pending : List Nat

/-- `NewScrollbackBuffer` from the source: empty ring of the given
capacity (`make([][]byte, capacity)` yields nil entries, modelled as
`[]`). -/
def NewScrollbackBuffer (capacity : Nat) : ScrollbackBuffer :=
  { lines := fun _ => [], head := 0, count := 0, cap := capacity, pending := [] }

/-- `addLine`: store the line at `head`, advance `head` modulo the
capacity, and grow `count` up to the capacity. -/
def addLine (b : ScrollbackBuffer) (line : List Nat) : ScrollbackBuffer :=
  { b with
    lines := fun i => if i = b.head then line else b.lines i
    head := (b.head + 1) % b.cap
    count := if b.count < b.cap then b.count + 1 else b.count }

/-- The `for len(data) > 0` loop of `Write`: find the next LF
(`bytes.IndexByte`), store the octets before it as a complete line, and
continue after it; when no LF remains, non-empty leftovers become the
pending line and the loop returns. -/
def writeLoop (b : ScrollbackBuffer) (data : List Nat) : ScrollbackBuffer :=
  if h : 10 ∈ data then
    writeLoop (addLine b (data.take (data.indexOf 10))) (data.drop (data.indexOf 10 + 1))
  else if data = [] then b
  else { b with pending := data }
termination_by data.length
decreasing_by
  simp only [List.length_drop]
  have := List.indexOf_lt_length.mpr h
  omega

/-- `Write` from the source: any previously pending octets are prepended
to the incoming data (and the pending field cleared) before the line
splitting loop runs. -/
def Write (b : ScrollbackBuffer) (data : List Nat) : ScrollbackBuffer :=
  if 0 < b.pending.length then writeLoop { b with pending := [] } (b.pending ++ data)
  else writeLoop b data

/-- `Lines()` accessor: number of complete lines stored. -/
def Lines (b : ScrollbackBuffer) : Nat := b.count

/-- `GetLine` from the source, index 0 being the oldest line; `none`
models Go's nil result for an out-of-range index.  Go computes
`(head - count + index + cap) % cap` in `int`; on every reachable state
`count ≤ cap` and `head < cap`, so the `Nat` expression below (summands
reordered to stay non-negative) computes the same value. -/
def GetLine (b : ScrollbackBuffer) (index : Int) : Option (List Nat) :=
  if index < 0 ∨ (b.count : Int) ≤ index then none
  else some (b.lines ((b.head + b.cap - b.count + index.toNat) % b.cap))

/-- `GetPartial` from the source (renamed: see `pending`): snapshot of
the pending line.  Go distinguishes nil from an empty copy; both are
`[]` here. -/
def GetPending (b : ScrollbackBuffer) : List Nat := b.pending

/-- `GetRange` from the source: up to `count` lines starting at `start`;
negative `start` is clamped to 0, a `start` at or past `count` yields the
empty window (Go nil), the end is truncated at `count`.  The entries come
from `GetLine` and are always in range, so the `getD []` default is never
used. -/
def GetRange (b : ScrollbackBuffer) (start count : Int) : List (List Nat) :=
  let start := if start < 0 then 0 else start
  if (b.count : Int) ≤ start then []
  else
    let stop := if (b.count : Int) < start + count then (b.count : Int) else start + count
    (List.range (stop - start).toNat).map
      (fun j : Nat => (GetLine b (start + (j : Int))).getD [])

/-- The mathematical LF decomposition a write stream denotes: the list of
LF-separated records (each LF-free) and the LF-free tail after the last
LF.  `lfSplit_flatten`, `lfSplit_records_no_lf` and `lfSplit_tail_no_lf`
below characterise it uniquely. -/
def lfSplit (data : List Nat) : List (List Nat) × List Nat :=
  if h : 10 ∈ data then
    let r := lfSplit (data.drop (data.indexOf 10 + 1))
    (data.take (data.indexOf 10) :: r.1, r.2)
  else ([], data)
termination_by data.length
decreasing_by
  simp only [List.length_drop]
  have := List.indexOf_lt_length.mpr h
  omega

theorem lfSplit_of_mem {data : List Nat} (h : 10 ∈ data) :
    lfSplit data = (data.take (data.indexOf 10) :: (lfSplit (data.drop (data.indexOf 10 + 1))).1,
      (lfSplit (data.drop (data.indexOf 10 + 1))).2) := by
  rw [lfSplit, dif_pos h]

theorem lfSplit_of_not_mem {data : List Nat} (h : 10 ∉ data) :
    lfSplit data = ([], data) := by
  rw [lfSplit, dif_neg h]

theorem not_mem_take_indexOf (a : Nat) (l : List Nat) : a ∉ l.take (l.indexOf a) := by
  induction l with
  | nil => simp
  | cons x xs ih =>
    by_cases hx : x = a
    · rw [List.indexOf_cons_eq _ hx]
      simp
    · rw [List.indexOf_cons_ne _ hx, List.take_succ_cons]
      intro hmem
      rcases List.mem_cons.mp hmem with h1 | h1
      · exact hx h1.symm
      · exact ih h1

theorem indexOf_split {data : List Nat} (h : 10 ∈ data) :
    data = data.take (data.indexOf 10) ++ 10 :: data.drop (data.indexOf 10 + 1) := by
  have hlt : data.indexOf 10 < data.length := List.indexOf_lt_length.mpr h
  conv_lhs => rw [← List.take_append_drop (data.indexOf 10) data]
  congr 1
  rw [List.drop_eq_getElem_cons hlt, List.getElem_indexOf hlt]

/-- Characterisation: `lfSplit` is the unique decomposition of the stream
into LF-terminated records followed by an LF-free tail. -/
theorem lfSplit_flatten (data : List Nat) :
    ((lfSplit data).1.map (fun l => l ++ [10])).flatten ++ (lfSplit data).2 = data := by
  suffices hgen : ∀ (n : Nat) (d : List Nat), d.length ≤ n →
      ((lfSplit d).1.map (fun l => l ++ [10])).flatten ++ (lfSplit d).2 = d from
    hgen data.length data le_rfl
  intro n
  induction n with
  | zero =>
    intro d hlen
    rw [List.length_eq_zero.mp (Nat.le_zero.mp hlen)]
    simp [lfSplit_of_not_mem]
  | succ n ih =>
    intro d hlen
    by_cases h : 10 ∈ d
    · rw [lfSplit_of_mem h]
      have hlt : d.indexOf 10 < d.length := List.indexOf_lt_length.mpr h
      have hrec := ih (d.drop (d.indexOf 10 + 1)) (by simp; omega)
      simp only [List.map_cons, List.flatten_cons]
      conv_rhs => rw [indexOf_split h]
      rw [List.append_assoc, List.append_assoc, hrec]
      simp
    · rw [lfSplit_of_not_mem h]
      simp

theorem lfSplit_records_no_lf (data : List Nat) :
    ∀ l ∈ (lfSplit data).1, 10 ∉ l := by
  suffices hgen : ∀ (n : Nat) (d : List Nat), d.length ≤ n →
      ∀ l ∈ (lfSplit d).1, 10 ∉ l from hgen data.length data le_rfl
  intro n
  induction n with
  | zero =>
    intro d hlen
    rw [List.length_eq_zero.mp (Nat.le_zero.mp hlen)]
    simp [lfSplit_of_not_mem]
  | succ n ih =>
    intro d hlen
    by_cases h : 10 ∈ d
    · rw [lfSplit_of_mem h]
      have hlt : d.indexOf 10 < d.length := List.indexOf_lt_length.mpr h
      intro l hl
      rcases List.mem_cons.mp hl with h1 | h1
      · rw [h1]
        exact not_mem_take_indexOf 10 d
      · exact ih (d.drop (d.indexOf 10 + 1)) (by simp; omega) l h1
    · rw [lfSplit_of_not_mem h]
      simp

theorem lfSplit_tail_no_lf (data : List Nat) : 10 ∉ (lfSplit data).2 := by
  suffices hgen : ∀ (n : Nat) (d : List Nat), d.length ≤ n → 10 ∉ (lfSplit d).2 from
    hgen data.length data le_rfl
  intro n
  induction n with
  | zero =>
    intro d hlen
    rw [List.length_eq_zero.mp (Nat.le_zero.mp hlen)]
    simp [lfSplit_of_not_mem]
  | succ n ih =>
    intro d hlen
    by_cases h : 10 ∈ d
    · rw [lfSplit_of_mem h]
      have hlt : d.indexOf 10 < d.length := List.indexOf_lt_length.mpr h
      exact ih (d.drop (d.indexOf 10 + 1)) (by simp; omega)
    · rw [lfSplit_of_not_mem h]
      exact h

/-- Splitting a concatenation: the records of `A ++ B` are the records of
`A` followed by the records of `A`'s tail prepended to `B`. -/
theorem lfSplit_append (A B : List Nat) :
    lfSplit (A ++ B) = ((lfSplit A).1 ++ (lfSplit ((lfSplit A).2 ++ B)).1,
      (lfSplit ((lfSplit A).2 ++ B)).2) := by
  suffices hgen : ∀ (n : Nat) (A : List Nat), A.length ≤ n →
      lfSplit (A ++ B) = ((lfSplit A).1 ++ (lfSplit ((lfSplit A).2 ++ B)).1,
        (lfSplit ((lfSplit A).2 ++ B)).2) from hgen A.length A le_rfl
  intro n
  induction n with
  | zero =>
    intro A hlen
    rw [List.length_eq_zero.mp (Nat.le_zero.mp hlen)]
    simp [lfSplit_of_not_mem]
  | succ n ih =>
    intro A hlen
    by_cases h : 10 ∈ A
    · have hlt : A.indexOf 10 < A.length := List.indexOf_lt_length.mpr h
      have hAB : 10 ∈ A ++ B := List.mem_append_left B h
      have hidx : (A ++ B).indexOf 10 = A.indexOf 10 := List.indexOf_append_of_mem h
      rw [lfSplit_of_mem hAB, lfSplit_of_mem h, hidx,
        List.take_append_of_le_length (le_of_lt hlt),
        List.drop_append_of_le_length (by omega)]
      rw [ih (A.drop (A.indexOf 10 + 1)) (by simp; omega)]
      simp
    · rw [lfSplit_of_not_mem h]
      simp

theorem writeLoop_of_mem {b : ScrollbackBuffer} {data : List Nat} (h : 10 ∈ data) :
    writeLoop b data =
      writeLoop (addLine b (data.take (data.indexOf 10))) (data.drop (data.indexOf 10 + 1)) := by
  conv_lhs => rw [writeLoop]
  rw [dif_pos h]

theorem writeLoop_of_not_mem_ne {b : ScrollbackBuffer} {data : List Nat}
    (h : 10 ∉ data) (h2 : data ≠ []) :
    writeLoop b data = { b with pending := data } := by
  conv_lhs => rw [writeLoop]
  rw [dif_neg h, if_neg h2]

theorem writeLoop_nil (b : ScrollbackBuffer) : writeLoop b [] = b := by
  conv_lhs => rw [writeLoop]
  rw [dif_neg (by simp), if_pos rfl]

theorem add_mod_eq_self_iff {C L D : Nat} (hD1 : 0 < D) (hD2 : D ≤ C) :
    (L + D) % C = L % C ↔ D = C := by
  constructor
  · intro h
    have h1 : L + D ≡ L + 0 [MOD C] := by
      simpa [Nat.ModEq] using h
    have h2 : D % C = 0 := Nat.ModEq.add_left_cancel' L h1
    have h3 : C ∣ D := Nat.dvd_of_mod_eq_zero h2
    exact le_antisymm hD2 (Nat.le_of_dvd hD1 h3)
  · intro h
    rw [h]
    exact Nat.add_mod_right L C

/-- Faithfulness of a ring state to the history of complete lines ever
written (`ls`, oldest first, evicted ones included) and the pending
incomplete line `p`. -/
def BufFaithful (C : Nat) (ls : List (List Nat)) (p : List Nat) (b : ScrollbackBuffer) : Prop :=
  b.cap = C ∧ b.head = ls.length % C ∧ b.count = min ls.length C ∧ b.pending = p ∧
  ∀ i, i < b.count →
    b.lines ((b.head + b.cap - b.count + i) % b.cap) = ls.getD (ls.length - b.count + i) []

theorem bufFaithful_fresh (C : Nat) : BufFaithful C [] [] (NewScrollbackBuffer C) := by
  refine ⟨rfl, by simp [NewScrollbackBuffer], by simp [NewScrollbackBuffer], rfl, ?_⟩
  intro i hi
  simp [NewScrollbackBuffer] at hi

theorem bufFaithful_addLine {C : Nat} {ls : List (List Nat)} {p : List Nat}
    {b : ScrollbackBuffer} (hC : 0 < C) (h : BufFaithful C ls p b) (L : List Nat) :
    BufFaithful C (ls ++ [L]) p (addLine b L) := by
  obtain ⟨hcap, hhead, hcount, hpend, hbuf⟩ := h
  refine ⟨hcap, ?_, ?_, hpend, ?_⟩
  · simp only [addLine, List.length_append, List.length_singleton]
    rw [hcap, hhead]
    exact Nat.mod_add_mod ls.length C 1
  · simp only [addLine, List.length_append, List.length_singleton]
    rw [hcap, hcount]
    split <;> omega
  · intro i hi
    have hc' : (addLine b L).count = min (ls.length + 1) C := by
      simp only [addLine]
      rw [hcap, hcount]
      split <;> omega
    rw [hc'] at hi
    have hh' : (addLine b L).head = (ls.length + 1) % C := by
      simp only [addLine]
      rw [hcap, hhead]
      exact Nat.mod_add_mod ls.length C 1
    have hcap' : (addLine b L).cap = C := hcap
    have hlines : (addLine b L).lines = fun j => if j = b.head then L else b.lines j := rfl
    rw [hc', hh', hcap', hlines, List.length_append, List.length_singleton]
    simp only []
    have hJ : ((ls.length + 1) % C + C - min (ls.length + 1) C + i) % C
        = (ls.length + (C - min (ls.length + 1) C + i + 1)) % C := by
      have h2 : (ls.length + 1) % C + C - min (ls.length + 1) C + i
          = (ls.length + 1) % C + (C - min (ls.length + 1) C + i) := by omega
      rw [h2, Nat.mod_add_mod]
      congr 1
      omega
    rw [hJ]
    by_cases hi' : i = min (ls.length + 1) C - 1
    · have hDC : C - min (ls.length + 1) C + i + 1 = C := by omega
      rw [if_pos (by rw [hhead, hDC]; exact Nat.add_mod_right ls.length C)]
      have hpos : ls.length + 1 - min (ls.length + 1) C + i = ls.length := by omega
      rw [hpos, List.getD_append_right ls [L] [] ls.length le_rfl, Nat.sub_self]
      rfl
    · have hDlt : C - min (ls.length + 1) C + i + 1 < C := by omega
      have hne : (ls.length + (C - min (ls.length + 1) C + i + 1)) % C ≠ b.head := by
        rw [hhead]
        intro hcon
        have := (add_mod_eq_self_iff (by omega) (le_of_lt hDlt)).mp hcon
        omega
      rw [if_neg hne]
      have hiold : i + 1 + min ls.length C - min (ls.length + 1) C < b.count := by
        rw [hcount]
        omega
      have harg : (b.head + b.cap - b.count +
            (i + 1 + min ls.length C - min (ls.length + 1) C)) % b.cap
          = (ls.length + (C - min (ls.length + 1) C + i + 1)) % C := by
        rw [hcap, hhead, hcount]
        have h3 : ls.length % C + C - min ls.length C +
              (i + 1 + min ls.length C - min (ls.length + 1) C)
            = ls.length % C +
              (C - min ls.length C + (i + 1 + min ls.length C - min (ls.length + 1) C)) := by
          omega
        rw [h3, Nat.mod_add_mod]
        congr 1
        omega
      rw [← harg, hbuf _ hiold, hcount]
      have hlt2 : ls.length + 1 - min (ls.length + 1) C + i < ls.length := by omega
      rw [List.getD_append ls [L] [] _ hlt2]
      congr 1
      omega

theorem bufFaithful_writeLoop {C : Nat} (hC : 0 < C) :
    ∀ (n : Nat) (data : List Nat), data.length ≤ n →
      ∀ (b : ScrollbackBuffer) (ls : List (List Nat)), BufFaithful C ls [] b →
      BufFaithful C (ls ++ (lfSplit data).1) (lfSplit data).2 (writeLoop b data) := by
  intro n
  induction n with
  | zero =>
    intro data hlen b ls h
    rw [List.length_eq_zero.mp (Nat.le_zero.mp hlen), writeLoop_nil,
      lfSplit_of_not_mem (by simp)]
    simpa using h
  | succ n ih =>
    intro data hlen b ls h
    by_cases hmem : 10 ∈ data
    · rw [writeLoop_of_mem hmem, lfSplit_of_mem hmem]
      have hlt := List.indexOf_lt_length.mpr hmem
      have hstep := bufFaithful_addLine hC h (data.take (data.indexOf 10))
      have hrec := ih (data.drop (data.indexOf 10 + 1)) (by simp; omega) _ _ hstep
      simpa [List.append_assoc] using hrec
    · by_cases hnil : data = []
      · subst hnil
        rw [writeLoop_nil, lfSplit_of_not_mem (by simp)]
        simpa using h
      · rw [writeLoop_of_not_mem_ne hmem hnil, lfSplit_of_not_mem hmem]
        obtain ⟨hcap, hhead, hcount, hpend, hbuf⟩ := h
        simp only [List.append_nil]
        exact ⟨hcap, hhead, hcount, rfl, hbuf⟩

theorem bufFaithful_Write {C : Nat} (hC : 0 < C) {ls : List (List Nat)} {p : List Nat}
    {b : ScrollbackBuffer} (h : BufFaithful C ls p b) (data : List Nat) :
    BufFaithful C (ls ++ (lfSplit (p ++ data)).1) (lfSplit (p ++ data)).2 (Write b data) := by
  have hpend := h.2.2.2.1
  unfold Write
  by_cases hp : 0 < b.pending.length
  · rw [if_pos hp, hpend]
    obtain ⟨hcap, hhead, hcount, _, hbuf⟩ := h
    have hb' : BufFaithful C ls [] { b with pending := [] } := ⟨hcap, hhead, hcount, rfl, hbuf⟩
    exact bufFaithful_writeLoop hC (p ++ data).length (p ++ data) le_rfl _ ls hb'
  · rw [if_neg hp]
    have hpnil : p = [] := by
      rw [← hpend]
      exact List.length_eq_zero.mp (by omega)
    subst hpnil
    have hb' : BufFaithful C ls [] b := h
    have hres := bufFaithful_writeLoop hC data.length data le_rfl b ls hb'
    simpa using hres

theorem bufFaithful_foldWrite {C : Nat} (hC : 0 < C) :
    ∀ (ws : List (List Nat)) (b : ScrollbackBuffer) (ls : List (List Nat)) (p : List Nat),
      BufFaithful C ls p b → 10 ∉ p →
      BufFaithful C (ls ++ (lfSplit (p ++ ws.flatten)).1) (lfSplit (p ++ ws.flatten)).2
        (ws.foldl Write b) := by
  intro ws
  induction ws with
  | nil =>
    intro b ls p h hp
    simp only [List.flatten_nil, List.foldl_nil, List.append_nil]
    rw [lfSplit_of_not_mem hp]
    simpa using h
  | cons d ws ih =>
    intro b ls p h hp
    simp only [List.flatten_cons, List.foldl_cons]
    have h1 := bufFaithful_Write hC h d
    have hp' : 10 ∉ (lfSplit (p ++ d)).2 := lfSplit_tail_no_lf _
    have h2 := ih _ _ _ h1 hp'
    have hsplit : lfSplit (p ++ (d ++ ws.flatten)) =
        ((lfSplit (p ++ d)).1 ++ (lfSplit ((lfSplit (p ++ d)).2 ++ ws.flatten)).1,
          (lfSplit ((lfSplit (p ++ d)).2 ++ ws.flatten)).2) := by
      rw [← List.append_assoc]
      exact lfSplit_append (p ++ d) ws.flatten
    rw [hsplit]
    simpa [List.append_assoc] using h2

theorem getLine_faithful {C : Nat} {ls : List (List Nat)} {p : List Nat}
    {b : ScrollbackBuffer} (h : BufFaithful C ls p b) (i : Nat) (hi : i < b.count) :
    GetLine b (i : Int) = some (ls.getD (ls.length - b.count + i) []) := by
  obtain ⟨hcap, hhead, hcount, hpend, hbuf⟩ := h
  unfold GetLine
  rw [if_neg (by push_neg; omega)]
  rw [Int.toNat_natCast]
  rw [hbuf i hi]

/-- C3: writing an arbitrary sequence of chunks to a fresh line ring of
positive capacity `C` leaves `Lines` equal to `min n C` where `n` is the
number of LF-separated records of the concatenated stream, the stored
lines (oldest first through `GetLine`) are exactly the last `Lines` of
those records in order, and the pending line equals the LF-free tail of
the stream. -/
theorem line_ring_write_correct (C : Nat) (ws : List (List Nat)) (hC : 0 < C) :
    Lines (ws.foldl Write (NewScrollbackBuffer C)) = min (lfSplit ws.flatten).1.length C ∧
    (∀ i : Nat, i < Lines (ws.foldl Write (NewScrollbackBuffer C)) →
      GetLine (ws.foldl Write (NewScrollbackBuffer C)) (i : Int) =
        some ((lfSplit ws.flatten).1.getD
          ((lfSplit ws.flatten).1.length - Lines (ws.foldl Write (NewScrollbackBuffer C)) + i)
          [])) ∧
    GetPending (ws.foldl Write (NewScrollbackBuffer C)) = (lfSplit ws.flatten).2 := by
  have h := bufFaithful_foldWrite hC ws (NewScrollbackBuffer C) [] []
    (bufFaithful_fresh C) (by simp)
  simp only [List.nil_append] at h
  refine ⟨h.2.2.1, fun i hi => getLine_faithful h i hi, h.2.2.2.1⟩

/-- C3 witness: stream `"h\nw\nx\ny"` (records h, w, x; tail y) into a
ring of capacity 2 retains the last two records. -/
theorem line_ring_write_correct_witness :
    Lines ([[104, 10, 119, 10, 120, 10, 121]].foldl Write (NewScrollbackBuffer 2)) =
      min (lfSplit [104, 10, 119, 10, 120, 10, 121]).1.length 2 ∧
    (∀ i : Nat, i < Lines ([[104, 10, 119, 10, 120, 10, 121]].foldl Write
        (NewScrollbackBuffer 2)) →
      GetLine ([[104, 10, 119, 10, 120, 10, 121]].foldl Write (NewScrollbackBuffer 2))
          (i : Int) =
        some ((lfSplit [104, 10, 119, 10, 120, 10, 121]).1.getD
          ((lfSplit [104, 10, 119, 10, 120, 10, 121]).1.length -
            Lines ([[104, 10, 119, 10, 120, 10, 121]].foldl Write (NewScrollbackBuffer 2)) + i)
          [])) ∧
    GetPending ([[104, 10, 119, 10, 120, 10, 121]].foldl Write (NewScrollbackBuffer 2)) =
      (lfSplit [104, 10, 119, 10, 120, 10, 121]).2 := by
  have h := line_ring_write_correct 2 [[104, 10, 119, 10, 120, 10, 121]] (by decide)
  simpa using h

/-- C4 (amended): on any reachable ring state holding the pending line
`p`, a write whose bytes contain no LF leaves the pending line equal to
`p ++ data` — the incoming bytes are appended to (not overwriting) the
previously held incomplete line. -/
theorem write_no_lf_appends_to_pending {C : Nat} {ls : List (List Nat)} {p : List Nat}
    {b : ScrollbackBuffer} (hC : 0 < C) (h : BufFaithful C ls p b) (hp : 10 ∉ p)
    (_hpne : p ≠ []) (data : List Nat) (hd : 10 ∉ data) :
    GetPending (Write b data) = p ++ data := by
  have h1 := bufFaithful_Write hC h data
  rw [lfSplit_of_not_mem (by
    intro hmem
    rcases List.mem_append.mp hmem with h2 | h2
    · exact hp h2
    · exact hd h2)] at h1
  exact h1.2.2.2.1

/-- C4 witness: pending `"a"`, write `"b"`: pending becomes `"ab"`. -/
theorem write_no_lf_appends_to_pending_witness :
    GetPending (Write (Write (NewScrollbackBuffer 10) [97]) [98]) = [97] ++ [98] := by
  have h0 := bufFaithful_fresh 10
  have h1 := bufFaithful_Write (by decide) h0 [97]
  simp only [List.nil_append] at h1
  rw [lfSplit_of_not_mem (by decide)] at h1
  exact write_no_lf_appends_to_pending (by decide) h1 (by decide) (by decide) [98] (by decide)

/-- C4 counterexample: after writing `"abc"` (pending `"abc"`) a further
LF-free write `"def"` leaves the pending line `"abcdef"`, not the claimed
`"def"` — the previously held pending line is not overwritten. -/
theorem write_no_lf_overwrite_counterexample :
    GetPending (Write (Write (NewScrollbackBuffer 10) [97, 98, 99]) [100, 101, 102]) =
      [97, 98, 99, 100, 101, 102] ∧
    [97, 98, 99, 100, 101, 102] ≠ [100, 101, 102] := by
  constructor
  · have h0 := bufFaithful_fresh 10
    have h1 := bufFaithful_Write (by decide) h0 [97, 98, 99]
    simp only [List.nil_append] at h1
    rw [lfSplit_of_not_mem (by decide)] at h1
    have h2 := bufFaithful_Write (by decide) h1 [100, 101, 102]
    rw [lfSplit_of_not_mem (by decide)] at h2
    exact h2.2.2.2.1
  · decide

/-! ## Session runtime (session.go) -/

/-- `"\r\n"` line separator used when joining history lines. -/
def crlfJoin : List (List Nat) → List Nat
  | [] => []
  | [l] => l
  | l :: ls => l ++ 13 :: 10 :: crlfJoin ls

/-- `handleHistoryRequest` from session.go.  `none` models the silent
early return on a payload shorter than 8 octets.  Go tests
`rawOffset & 0x80000000 != 0` (bit 31) and masks with `0x7FFFFFFF`
(`% 2^31` for a 32-bit value); `start` is computed in `int` and clamped
at 0, which truncated `Nat` subtraction performs directly.  The two
32-bit header fields are `uint32(start)` and `uint32(totalLines)`
(truncation built into `be32`). -/
def handleHistoryRequest (b : ScrollbackBuffer) (payload : List Nat) : Option Message :=
  if payload.length < 8 then none
  else
    let rawOffset := readU32 payload
    let count := readU32 (payload.drop 4)
    let totalLines := Lines b
    let start : Nat :=
      if rawOffset.testBit 31 then totalLines - rawOffset % 2 ^ 31 - count
      else rawOffset
    some ⟨MsgHistoryResponse,
      be32 start ++ be32 totalLines ++ crlfJoin (GetRange b (start : Int) (count : Int))⟩

/-- Per-session mutable state touched by the per-connection reader and
the acceptor (session.go `Session` struct): the line ring, `lastRows`,
the PTY size (updated through `pty.Setsize`), the bytes written to the
PTY master, the active front-end slot, the raw replay ring, and whether
the child shell was killed. -/
structure SessionState where
  buffer : ScrollbackBuffer
  lastRows : Nat
  ptyRows : Nat
  ptyCols : Nat
  ptyWritten : List Nat
  client : Option Nat
  raw : RawRing
  killed : Bool

/-- Whether the per-connection reader keeps looping after a message. -/
inductive LoopCtl where
  | cont
  | stop
  deriving DecidableEq, Repr

/-- One iteration of `handleClient`'s message switch: the updated session
state, the messages written back to the connection, and whether the loop
continues.  RESIZE parses big-endian u16 rows/cols only when the payload
has at least 4 octets (`rows` is stored in `lastRows` as an `int`, and
the PTY receives `uint16` values); DETACH and KILL return from the loop;
an unknown kind falls through the switch and loops on. -/
def handleMessage (s : SessionState) (msg : Message) : SessionState × List Message × LoopCtl :=
  if msg.type = MsgData then
    ({ s with ptyWritten := s.ptyWritten ++ msg.payload }, [], .cont)
  else if msg.type = MsgResize then
    if 4 ≤ msg.payload.length then
      let rows := msg.payload.getD 0 0 <<< 8 ||| msg.payload.getD 1 0
      let cols := msg.payload.getD 2 0 <<< 8 ||| msg.payload.getD 3 0
      ({ s with lastRows := rows, ptyRows := rows % 2 ^ 16, ptyCols := cols % 2 ^ 16 },
        [], .cont)
    else (s, [], .cont)
  else if msg.type = MsgDetach then (s, [], .stop)
  else if msg.type = MsgKill then ({ s with killed := true }, [], .stop)
  else if msg.type = MsgHistoryRequest then
    match handleHistoryRequest s.buffer msg.payload with
    | none => (s, [], .cont)
    | some resp => (s, [resp], .cont)
  else (s, [], .cont)

/-- `"session already attached\r\n"` (ASCII), the rejection text of
`acceptClients`. -/
def attachMsg : List Nat :=
  [115, 101, 115, 115, 105, 111, 110, 32, 97, 108, 114, 101, 97, 100, 121, 32,
   97, 116, 116, 97, 99, 104, 101, 100, 13, 10]

/-- One `acceptClients` iteration for an incoming connection: when a
front-end is already attached, the new connection is sent one encoded
DATA frame carrying `attachMsg` and closed (`true`) with the state
untouched; otherwise the connection is registered and immediately sent
the redraw (`sendRedraw`). -/
def acceptClient (s : SessionState) (newConn : Nat) : SessionState × List Nat × Bool :=
  match s.client with
  | some _ => (s, Encode ⟨MsgData, attachMsg⟩, true)
  | none =>
    ({ s with client := some newConn },
      (match sendRedraw s.raw with
       | none => []
       | some m => Encode m), false)

theorem readU32_be32 (n : Nat) : readU32 (be32 n) = n % 2 ^ 32 := by
  have h := readU32_be32_append n []
  simpa using h

theorem getRange_length (b : ScrollbackBuffer) (start count : Nat) :
    (GetRange b (start : Int) (count : Int)).length = min count (b.count - start) := by
  simp only [GetRange]
  rw [if_neg (not_lt.mpr (Int.natCast_nonneg start))]
  split
  · rename_i hbc
    simp only [List.length_nil]
    omega
  · rename_i hbc
    rw [List.length_map, List.length_range]
    split <;> omega

theorem handleHistoryRequest_from_end (b : ScrollbackBuffer) (k c : Nat)
    (hk : k < 2 ^ 31) (hc : c < 2 ^ 32) :
    handleHistoryRequest b (be32 (2 ^ 31 + k) ++ be32 c) =
      some ⟨MsgHistoryResponse,
        be32 (b.count - k - c) ++ be32 b.count ++
          crlfJoin (GetRange b ((b.count - k - c : Nat) : Int) (c : Int))⟩ := by
  have hlen : (be32 (2 ^ 31 + k) ++ be32 c).length = 8 := by simp [be32]
  have hro : readU32 (be32 (2 ^ 31 + k) ++ be32 c) = 2 ^ 31 + k := by
    rw [readU32_be32_append]
    omega
  have hdrop : (be32 (2 ^ 31 + k) ++ be32 c).drop 4 = be32 c := by
    rw [show (4 : Nat) = (be32 (2 ^ 31 + k)).length from rfl]
    exact List.drop_left _ _
  have htb : (2 ^ 31 + k).testBit 31 = true := by
    rw [Nat.testBit_to_div_mod]
    simp only [decide_eq_true_eq]
    omega
  have hmask : (2 ^ 31 + k) % 2 ^ 31 = k := by omega
  simp only [handleHistoryRequest, Lines]
  rw [if_neg (by rw [hlen]; omega), hro, hdrop, readU32_be32, Nat.mod_eq_of_lt hc, htb]
  rw [if_pos rfl, hmask]

/-- C1 (amended): for every buffer state, a well-formed 8-octet from-end
HISTORY_REQUEST with low-31-bit distance `k` and count `c` produces a
HISTORY_RESPONSE whose `start_line` is `max(0, total_lines - k - c)`
(truncated `Nat` subtraction), whose second field is `total_lines`, and
whose body is exactly the ring lines `[start, start + c)` joined by CRLF
— which is `min(c, total_lines - start_line)` lines; the current partial
line is never appended (contrary to the original claim). -/
theorem history_from_end_response (b : ScrollbackBuffer) (k c : Nat)
    (hk : k < 2 ^ 31) (hc : c < 2 ^ 32) :
    handleHistoryRequest b (be32 (2 ^ 31 + k) ++ be32 c) =
      some ⟨MsgHistoryResponse,
        be32 (b.count - k - c) ++ be32 b.count ++
          crlfJoin (GetRange b ((b.count - k - c : Nat) : Int) (c : Int))⟩ ∧
    (GetRange b ((b.count - k - c : Nat) : Int) (c : Int)).length =
      min c (b.count - (b.count - k - c)) :=
  ⟨handleHistoryRequest_from_end b k c hk hc, getRange_length b (b.count - k - c) c⟩

/-- C1 witness: instantiated on a fresh buffer with `k = 1`, `c = 2`. -/
theorem history_from_end_response_witness :
    handleHistoryRequest (NewScrollbackBuffer 10000) (be32 (2 ^ 31 + 1) ++ be32 2) =
      some ⟨MsgHistoryResponse,
        be32 ((NewScrollbackBuffer 10000).count - 1 - 2) ++
          be32 (NewScrollbackBuffer 10000).count ++
          crlfJoin (GetRange (NewScrollbackBuffer 10000)
            (((NewScrollbackBuffer 10000).count - 1 - 2 : Nat) : Int) ((2 : Nat) : Int))⟩ ∧
    (GetRange (NewScrollbackBuffer 10000)
        (((NewScrollbackBuffer 10000).count - 1 - 2 : Nat) : Int) ((2 : Nat) : Int)).length =
      min 2 ((NewScrollbackBuffer 10000).count -
        ((NewScrollbackBuffer 10000).count - 1 - 2)) :=
  history_from_end_response (NewScrollbackBuffer 10000) 1 2 (by norm_num) (by norm_num)

/-- C1 counterexample: a session holding one complete line `"a"` and the
partial `"p"` answers the from-end request `k = 0, c = 1` — whose window
reaches the newest stored line — with body `"a"` alone: the partial is
not appended, refuting the claimed `"a\r\np"` body. -/
theorem history_partial_not_appended_counterexample :
    handleHistoryRequest (Write (NewScrollbackBuffer 10000) [97, 10, 112])
        (be32 (2 ^ 31 + 0) ++ be32 1) =
      some ⟨MsgHistoryResponse, [0, 0, 0, 0, 0, 0, 0, 1, 97]⟩ ∧
    GetPending (Write (NewScrollbackBuffer 10000) [97, 10, 112]) = [112] ∧
    Lines (Write (NewScrollbackBuffer 10000) [97, 10, 112]) = 1 ∧
    [0, 0, 0, 0, 0, 0, 0, 1, 97] ≠ [0, 0, 0, 0, 0, 0, 0, 1, 97, 13, 10, 112] := by
  have h0 := bufFaithful_fresh 10000
  have h1 := bufFaithful_Write (by norm_num) h0 [97, 10, 112]
  simp only [List.nil_append] at h1
  have heval : lfSplit [97, 10, 112] = ([[97]], [112]) := by
    rw [lfSplit_of_mem (by decide)]
    show (([97] : List Nat) :: (lfSplit [112]).1, (lfSplit [112]).2) = ([[97]], [112])
    rw [lfSplit_of_not_mem (by decide)]
  rw [heval] at h1
  have hcount : (Write (NewScrollbackBuffer 10000) [97, 10, 112]).count = 1 := by
    have hc := h1.2.2.1
    simpa using hc
  have hgl : GetLine (Write (NewScrollbackBuffer 10000) [97, 10, 112]) (0 : Int) =
      some [97] := by
    have hg := getLine_faithful h1 0 (by rw [hcount]; exact Nat.one_pos)
    simpa [hcount] using hg
  have hgr : GetRange (Write (NewScrollbackBuffer 10000) [97, 10, 112])
      ((0 : Nat) : Int) ((1 : Nat) : Int) = [[97]] := by
    simp only [GetRange, hcount]
    norm_num
    rw [show List.range 1 = [0] from rfl]
    simp [hgl]
  refine ⟨?_, h1.2.2.2.1, hcount, by decide⟩
  have happ := handleHistoryRequest_from_end
    (Write (NewScrollbackBuffer 10000) [97, 10, 112]) 0 1 (by norm_num) (by norm_num)
  rw [happ, hcount]
  norm_num
  norm_num at hgr
  rw [hgr]
  decide

/-- A concrete freshly started session (used by witnesses). -/
def sampleSession : SessionState :=
  { buffer := NewScrollbackBuffer 10000, lastRows := 0, ptyRows := 0, ptyCols := 0,
    ptyWritten := [], client := none, raw := freshRaw, killed := false }

/-- C9: a RESIZE payload shorter than 4 octets and a HISTORY_REQUEST
payload shorter than 8 octets are both silently ignored: no reply is
sent, the session state (scrollback, last-known rows, PTY size, attached
front-end, everything) is unchanged, and the message loop continues. -/
theorem malformed_payload_ignored (s : SessionState) (payload : List Nat) :
    (payload.length < 4 → handleMessage s ⟨MsgResize, payload⟩ = (s, [], .cont)) ∧
    (payload.length < 8 → handleMessage s ⟨MsgHistoryRequest, payload⟩ = (s, [], .cont)) := by
  constructor
  · intro h
    unfold handleMessage
    simp only [MsgData, MsgResize]
    norm_num
    intro h4
    exact absurd h4 (by omega)
  · intro h
    unfold handleMessage
    simp only [MsgData, MsgResize, MsgDetach, MsgKill, MsgHistoryRequest]
    norm_num
    unfold handleHistoryRequest
    rw [if_pos h]

/-- C9 witness: a 2-octet RESIZE and a 4-octet HISTORY_REQUEST are
dropped on a concrete fresh session. -/
theorem malformed_payload_ignored_witness :
    handleMessage sampleSession ⟨MsgResize, [0, 24]⟩ = (sampleSession, [], .cont) ∧
    handleMessage sampleSession ⟨MsgHistoryRequest, [0, 0, 0, 0]⟩ =
      (sampleSession, [], .cont) :=
  ⟨(malformed_payload_ignored sampleSession [0, 24]).1 (by decide),
   (malformed_payload_ignored sampleSession [0, 0, 0, 0]).2 (by decide)⟩

/-- C8: while a front-end is attached, an incoming connection is rejected:
the session state (including the active front-end slot) is returned
unchanged, the new connection receives exactly the encoding of one DATA
message with payload `"session already attached\r\n"` — which decodes to
that single message with nothing left on the stream (EOF) — and the new
connection is closed. -/
theorem second_attach_rejected (s : SessionState) (c newConn : Nat)
    (h : s.client = some c) :
    acceptClient s newConn = (s, Encode ⟨MsgData, attachMsg⟩, true) ∧
    Decode (Encode ⟨MsgData, attachMsg⟩) = some (⟨MsgData, attachMsg⟩, []) := by
  constructor
  · unfold acceptClient
    rw [h]
  · have hd := Decode_Encode_append ⟨MsgData, attachMsg⟩ [] (by norm_num [attachMsg])
    simpa using hd

/-- C8 witness: concrete session with front-end 0 attached rejects
connection 1. -/
theorem second_attach_rejected_witness :
    acceptClient { sampleSession with client := some 0 } 1 =
      ({ sampleSession with client := some 0 }, Encode ⟨MsgData, attachMsg⟩, true) ∧
    Decode (Encode ⟨MsgData, attachMsg⟩) = some (⟨MsgData, attachMsg⟩, []) :=
  second_attach_rejected { sampleSession with client := some 0 } 0 1 rfl

/-! ## Front-end state machine (client.go) -/

/-- Session metadata as the front-end sees it (main.go `SessionInfo`),
with the `id` and `name` strings as their byte sequences. -/
structure SessionInfoM where
  id : List Nat
  name : List Nat
  deriving DecidableEq, Repr

/-- Front-end state: the fields of client.go's `Client` that the input
relay reads or writes, plus the `prefixActive` local of `relayStdin`.
`historyOffset`, `termRows` and `termCols` are Go `int`s. -/
structure ClientState where
  historyMode : Bool
  historyOffset : Int
  termRows : Int
  termCols : Int
  choosingSession : Bool
  deletingSession : Bool
  sessionChoices : List SessionInfoM
  sessionID : List Nat
  detached : Bool
  prefixActive : Bool

/-- Go `int` → `uint32` conversion (two's-complement truncation). -/
def uint32OfInt (i : Int) : Nat := (i % (2 ^ 32 : Int)).toNat

/-- `requestHistory` from client.go: from-end request whose offset field
is `0x80000000 | uint32(historyOffset)` and whose count is the terminal
rows (24 when unknown). -/
def requestHistoryMsg (st : ClientState) : Message :=
  let rows := if st.termRows ≤ 0 then (24 : Int) else st.termRows
  ⟨MsgHistoryRequest, be32 ((2 ^ 31).lor (uint32OfInt st.historyOffset)) ++
    be32 (uint32OfInt rows)⟩

/-- The request `exitHistoryMode` sends (offset field `0x80000000`,
count = rows): a redraw of the latest lines. -/
def exitHistoryMsg (st : ClientState) : Message :=
  let rows := if st.termRows ≤ 0 then (24 : Int) else st.termRows
  ⟨MsgHistoryRequest, be32 (2 ^ 31) ++ be32 (uint32OfInt rows)⟩

/-- Decimal ASCII rendering of a natural number (`fmt.Sprintf` `%d`). -/
def natDecimal (n : Nat) : List Nat :=
  if n < 10 then [48 + n]
  else natDecimal (n / 10) ++ [48 + n % 10]
termination_by n
decreasing_by omega

/-- One entry of the session picker:
`fmt.Sprintf("  %s%d) %s [%s]\r\n", marker, i+1, info.Name, shortID)`,
with `marker = "* "` for the current session and the id shortened to its
first 8 bytes. -/
def pickerLine (curId : List Nat) (i : Nat) (info : SessionInfoM) : List Nat :=
  let shortID := if 8 < info.id.length then info.id.take 8 else info.id
  let marker := if info.id = curId then [42, 32] else [32, 32]
  [32, 32] ++ marker ++ natDecimal (i + 1) ++ [41, 32] ++ info.name ++ [32, 91] ++
    shortID ++ [93, 13, 10]

/-- Everything `showSessionPicker` writes to the terminal: clear screen,
the bold `"Switch session:"` header, one line per session, and the
`n`/`d`/`q` footer ending with `"Choice: "`. -/
def pickerScreen (curId : List Nat) (choices : List SessionInfoM) : List Nat :=
  clearSeq ++
  [27, 91, 49, 109, 83, 119, 105, 116, 99, 104, 32, 115, 101, 115, 115, 105, 111, 110,
   58, 27, 91, 48, 109, 13, 10, 13, 10] ++
  (choices.mapIdx (fun i info => pickerLine curId i info)).flatten ++
  [13, 10, 32, 32, 110, 41, 32, 78, 101, 119, 32, 115, 101, 115, 115, 105, 111, 110,
   13, 10, 32, 32, 100, 41, 32, 68, 101, 108, 101, 116, 101, 32, 115, 101, 115, 115,
   105, 111, 110, 13, 10, 32, 32, 113, 41, 32, 67, 97, 110, 99, 101, 108, 13, 10, 13,
   10, 67, 104, 111, 105, 99, 101, 58, 32]

/-- The `if prefixActive { prefixActive = false; switch b { … } }` block
of `relayStdin` (client.go 190-220), acting on one input byte just after
the `0x01` prefix was consumed.  `env` is what `listSessions()` returns.
Result: new state, messages sent to the session, bytes written to the
terminal, and whether `relayStdin` returns (detach). -/
def prefixDispatch (env : List SessionInfoM) (st : ClientState) (b : Nat) :
    ClientState × List Message × List Nat × Bool :=
  let st := { st with prefixActive := false }
  if b = 100 then
    ({ st with detached := true }, [⟨MsgDetach, []⟩], [], true)
  else if b = 115 then
    ({ st with sessionChoices := env, choosingSession := true },
      [], pickerScreen st.sessionID env, false)
  else if b = 91 then
    if st.historyMode = false then
      let st := { st with historyMode := true, historyOffset := 3 }
      (st, [requestHistoryMsg st], [], false)
    else (st, [], [], false)
  else if b = 1 then
    if st.historyMode then
      let st := { st with historyMode := false, historyOffset := 0 }
      (st, [exitHistoryMsg st, ⟨MsgData, [1]⟩], [], false)
    else (st, [⟨MsgData, [1]⟩], [], false)
  else (st, [], [], false)

/-- A concrete front-end in LIVE mode (used by witnesses). -/
def sampleClient : ClientState :=
  { historyMode := false, historyOffset := 0, termRows := 24, termCols := 80,
    choosingSession := false, deletingSession := false, sessionChoices := [],
    sessionID := [], detached := false, prefixActive := true }

/-- C6 (amended): after the prefix byte, any byte other than `'d'`,
`'s'`, `'['` and `0x01` is discarded — the front-end returns to LIVE
(only `prefixActive` is cleared), no message is sent to the session, no
output is written to the terminal, and the input loop continues.  (The
original claim omitted `'s'`, which opens the session picker.) -/
theorem prefix_other_byte_discarded (env : List SessionInfoM) (st : ClientState) (b : Nat)
    (hd : b ≠ 100) (hs : b ≠ 115) (hbr : b ≠ 91) (hc : b ≠ 1) :
    prefixDispatch env st b = ({ st with prefixActive := false }, [], [], false) := by
  unfold prefixDispatch
  rw [if_neg hd, if_neg hs, if_neg hbr, if_neg hc]

/-- C6 witness: the byte `'x'` after the prefix is discarded. -/
theorem prefix_other_byte_discarded_witness :
    prefixDispatch [] sampleClient 120 =
      ({ sampleClient with prefixActive := false }, [], [], false) :=
  prefix_other_byte_discarded [] sampleClient 120 (by decide) (by decide) (by decide)
    (by decide)

/-- C6 counterexample: the byte `'s'` after the prefix is not `'d'`,
`0x01` or `'['`, yet it is not discarded: the session picker is written
to the terminal (output non-empty) and the front-end leaves LIVE
(`choosingSession` becomes true). -/
theorem prefix_s_opens_picker_counterexample :
    (prefixDispatch [] sampleClient 115).2.2.1 ≠ [] ∧
    (prefixDispatch [] sampleClient 115).1.choosingSession = true := by
  constructor
  · show pickerScreen sampleClient.sessionID [] ≠ []
    simp [pickerScreen, clearSeq]
  · rfl

/-! ## SGR mouse parser (mouse.go) -/

/-- A parsed SGR mouse event (mouse.go `MouseEvent`).  The Go fields are
`int`s; the parser only produces values Go's `strconv.Atoi` accepts, so
`Nat` carries them. -/
structure MouseEvent where
  Button : Nat
  Col : Nat
  Row : Nat
  Press : Bool
  deriving DecidableEq, Repr

/-- The terminator scan of `ParseSGRMouse` (the `for i := 3 …` loop):
walk the octets from absolute index `i`, succeed at the first `M`/`m`,
fail on any byte that is neither a digit nor a semicolon, fail at the end
of the data. -/
def findTermAux : List Nat → Nat → Option Nat
  | [], _ => none
  | c :: rest, i =>
    if c = 77 ∨ c = 109 then some i
    else if c ≠ 59 ∧ (c < 48 ∨ 57 < c) then none
    else findTermAux rest (i + 1)

/-- `splitSemicolon` from mouse.go: split on every `';'`, keeping empty
parts (`""` yields `[""]`).  The accumulator holds the current part in
reverse, mirroring Go's `start`/`i` index pair. -/
def splitSemicolonAux : List Nat → List Nat → List (List Nat)
  | [], cur => [cur.reverse]
  | c :: rest, cur =>
    if c = 59 then cur.reverse :: splitSemicolonAux rest []
    else splitSemicolonAux rest (c :: cur)

def splitSemicolon (s : List Nat) : List (List Nat) :=
  splitSemicolonAux s []

/-- Value of a decimal digit string (most significant first). -/
def digitsVal (s : List Nat) : Nat :=
  s.foldl (fun acc c => acc * 10 + (c - 48)) 0

/-- `strconv.Atoi` as it behaves on the strings this parser can feed it
(digits only — the scan has already rejected signs and other bytes):
error on the empty string or a non-digit, error when the value exceeds
`MaxInt64 = 2^63 - 1` (Go's `ErrRange`), else the value. -/
def goAtoi (s : List Nat) : Option Nat :=
  if s = [] then none
  else if ¬ (∀ c ∈ s, 48 ≤ c ∧ c ≤ 57) then none
  else if digitsVal s < 2 ^ 63 then some (digitsVal s) else none

/-- `ParseSGRMouse` from mouse.go.  Total by construction (the Go
original never panics; failure is the in-band `ok = false`, here `none`).
Steps: 9-octet minimum, `ESC [ <` prefix check, terminator scan from
index 3, split `data[3:termIdx]` on semicolons, exactly three parts, one
`Atoi` per part, press iff the terminator is `M`, `termIdx + 1` octets
consumed. -/
def ParseSGRMouse (data : List Nat) : Option (MouseEvent × Nat) :=
  if data.length < 9 then none
  else if data.getD 0 0 ≠ 27 ∨ data.getD 1 0 ≠ 91 ∨ data.getD 2 0 ≠ 60 then none
  else
    match findTermAux (data.drop 3) 3 with
    | none => none
    | some termIdx =>
      let params := (data.take termIdx).drop 3
      match splitSemicolon params with
      | [bs, cs, rs] =>
        match goAtoi bs, goAtoi cs, goAtoi rs with
        | some button, some col, some row =>
          some (⟨button, col, row, data.getD termIdx 0 == 77⟩, termIdx + 1)
        | _, _, _ => none
      | _ => none

theorem findTermAux_append (t : Nat) (v : List Nat) (ht : t = 77 ∨ t = 109) :
    ∀ (u : List Nat), (∀ c ∈ u, c = 59 ∨ (48 ≤ c ∧ c ≤ 57)) →
      ∀ i, findTermAux (u ++ t :: v) i = some (i + u.length) := by
  intro u
  induction u with
  | nil =>
    intro _ i
    simp only [List.nil_append, findTermAux, if_pos ht, List.length_nil, Nat.add_zero]
  | cons c u ih =>
    intro hu i
    have hc := hu c (List.mem_cons_self c u)
    simp only [List.cons_append, findTermAux]
    rw [if_neg (by omega), if_neg (by omega)]
    show findTermAux (u ++ t :: v) (i + 1) = some (i + (c :: u).length)
    rw [ih (fun x hx => hu x (List.mem_cons_of_mem c hx)) (i + 1)]
    simp only [List.length_cons]
    congr 1
    omega

theorem findTermAux_some (l : List Nat) : ∀ i j, findTermAux l i = some j →
    ∃ u t v, l = u ++ t :: v ∧ j = i + u.length ∧ (t = 77 ∨ t = 109) ∧
      ∀ c ∈ u, c = 59 ∨ (48 ≤ c ∧ c ≤ 57) := by
  induction l with
  | nil =>
    intro i j h
    simp [findTermAux] at h
  | cons c rest ih =>
    intro i j h
    unfold findTermAux at h
    by_cases h1 : c = 77 ∨ c = 109
    · rw [if_pos h1] at h
      refine ⟨[], c, rest, rfl, ?_, h1, by simp⟩
      simpa using (Option.some.inj h).symm
    · rw [if_neg h1] at h
      by_cases h2 : c ≠ 59 ∧ (c < 48 ∨ 57 < c)
      · rw [if_pos h2] at h
        cases h
      · rw [if_neg h2] at h
        obtain ⟨u, t, v, hl, hj, ht, hu⟩ := ih (i + 1) j h
        refine ⟨c :: u, t, v, by rw [List.cons_append, hl], by simp [hj]; omega, ht, ?_⟩
        intro x hx
        rcases List.mem_cons.mp hx with hx1 | hx1
        · subst hx1
          omega
        · exact hu x hx1

theorem splitSemicolonAux_ne_nil (l : List Nat) : ∀ acc, splitSemicolonAux l acc ≠ [] := by
  induction l with
  | nil =>
    intro acc
    simp [splitSemicolonAux]
  | cons c rest ih =>
    intro acc
    unfold splitSemicolonAux
    by_cases hc : c = 59
    · rw [if_pos hc]
      simp
    · rw [if_neg hc]
      exact ih _

/-- Joining parts back with semicolons (inverse of `splitSemicolon`). -/
def joinSemi : List (List Nat) → List Nat
  | [] => []
  | [p] => p
  | p :: ps => p ++ 59 :: joinSemi ps

theorem splitSemicolonAux_join (l : List Nat) :
    ∀ acc, joinSemi (splitSemicolonAux l acc) = acc.reverse ++ l := by
  induction l with
  | nil =>
    intro acc
    simp [splitSemicolonAux, joinSemi]
  | cons c rest ih =>
    intro acc
    unfold splitSemicolonAux
    by_cases hc : c = 59
    · rw [if_pos hc]
      obtain ⟨q, qs, hq⟩ := List.exists_cons_of_ne_nil (splitSemicolonAux_ne_nil rest [])
      have hih := ih []
      rw [hq] at hih ⊢
      simp only [List.reverse_nil, List.nil_append] at hih
      show acc.reverse ++ 59 :: joinSemi (q :: qs) = acc.reverse ++ c :: rest
      rw [hih, hc]
    · rw [if_neg hc, ih (c :: acc)]
      simp

theorem splitSemicolonAux_no_semi_eq (u : List Nat) (hu : 59 ∉ u) :
    ∀ acc, splitSemicolonAux u acc = [acc.reverse ++ u] := by
  induction u with
  | nil =>
    intro acc
    simp [splitSemicolonAux]
  | cons c u ih =>
    intro acc
    unfold splitSemicolonAux
    rw [if_neg (by intro h; exact hu (h ▸ List.mem_cons_self c u)),
      ih (fun h => hu (List.mem_cons_of_mem c h)) (c :: acc)]
    simp

theorem splitSemicolonAux_semi_split (u v : List Nat) (hu : 59 ∉ u) :
    ∀ acc, splitSemicolonAux (u ++ 59 :: v) acc =
      (acc.reverse ++ u) :: splitSemicolonAux v [] := by
  induction u with
  | nil =>
    intro acc
    simp [splitSemicolonAux]
  | cons c u ih =>
    intro acc
    simp only [List.cons_append, splitSemicolonAux]
    rw [if_neg (by intro h; exact hu (h ▸ List.mem_cons_self c u))]
    show splitSemicolonAux (u ++ 59 :: v) (c :: acc) = (acc.reverse ++ c :: u) :: _
    rw [ih (fun h => hu (List.mem_cons_of_mem c h)) (c :: acc)]
    simp

theorem splitSemicolon_three (bs cs rs : List Nat)
    (hbs : 59 ∉ bs) (hcs : 59 ∉ cs) (hrs : 59 ∉ rs) :
    splitSemicolon (bs ++ 59 :: (cs ++ 59 :: rs)) = [bs, cs, rs] := by
  unfold splitSemicolon
  rw [splitSemicolonAux_semi_split bs (cs ++ 59 :: rs) hbs [],
    splitSemicolonAux_semi_split cs rs hcs [],
    splitSemicolonAux_no_semi_eq rs hrs []]
  simp

theorem goAtoi_eq_some (s : List Nat) (hne : s ≠ [])
    (hdig : ∀ c ∈ s, 48 ≤ c ∧ c ≤ 57) (hval : digitsVal s < 2 ^ 63) :
    goAtoi s = some (digitsVal s) := by
  unfold goAtoi
  rw [if_neg hne, if_neg (not_not.mpr hdig), if_pos hval]

theorem goAtoi_some (s : List Nat) (n : Nat) (h : goAtoi s = some n) :
    s ≠ [] ∧ (∀ c ∈ s, 48 ≤ c ∧ c ≤ 57) ∧ digitsVal s < 2 ^ 63 ∧ n = digitsVal s := by
  unfold goAtoi at h
  by_cases h1 : s = []
  · rw [if_pos h1] at h
    cases h
  · rw [if_neg h1] at h
    by_cases h2 : ∀ c ∈ s, 48 ≤ c ∧ c ≤ 57
    · rw [if_neg (not_not.mpr h2)] at h
      by_cases h3 : digitsVal s < 2 ^ 63
      · rw [if_pos h3] at h
        exact ⟨h1, h2, h3, (Option.some.inj h).symm⟩
      · rw [if_neg h3] at h
        cases h
    · rw [if_pos h2] at h
      cases h

theorem ParseSGRMouse_term (data : List Nat) (termIdx : Nat)
    (h9 : ¬ data.length < 9)
    (hpre : ¬(data.getD 0 0 ≠ 27 ∨ data.getD 1 0 ≠ 91 ∨ data.getD 2 0 ≠ 60))
    (hterm : findTermAux (data.drop 3) 3 = some termIdx) :
    ParseSGRMouse data =
      (match splitSemicolon ((data.take termIdx).drop 3) with
       | [bs, cs, rs] =>
         match goAtoi bs, goAtoi cs, goAtoi rs with
         | some button, some col, some row =>
           some (⟨button, col, row, data.getD termIdx 0 == 77⟩, termIdx + 1)
         | _, _, _ => none
       | _ => none) := by
  unfold ParseSGRMouse
  rw [if_neg h9, if_neg hpre, hterm]

theorem parseSGR_complete (bs cs rs : List Nat) (t : Nat) (rest : List Nat)
    (hbs : bs ≠ []) (hcs : cs ≠ []) (hrs : rs ≠ [])
    (hbsd : ∀ c ∈ bs, 48 ≤ c ∧ c ≤ 57) (hcsd : ∀ c ∈ cs, 48 ≤ c ∧ c ≤ 57)
    (hrsd : ∀ c ∈ rs, 48 ≤ c ∧ c ≤ 57)
    (ht : t = 77 ∨ t = 109)
    (hbv : digitsVal bs < 2 ^ 63) (hcv : digitsVal cs < 2 ^ 63)
    (hrv : digitsVal rs < 2 ^ 63) :
    ParseSGRMouse (27 :: 91 :: 60 :: (bs ++ 59 :: (cs ++ 59 :: (rs ++ t :: rest)))) =
      some (⟨digitsVal bs, digitsVal cs, digitsVal rs, t == 77⟩,
        bs.length + cs.length + rs.length + 6) := by
  have hbp := List.length_pos.mpr hbs
  have hcp := List.length_pos.mpr hcs
  have hrp := List.length_pos.mpr hrs
  have hassoc : bs ++ 59 :: (cs ++ 59 :: (rs ++ t :: rest)) =
      (bs ++ 59 :: (cs ++ 59 :: rs)) ++ t :: rest := by
    simp
  rw [hassoc]
  have hu : ∀ c ∈ bs ++ 59 :: (cs ++ 59 :: rs), c = 59 ∨ (48 ≤ c ∧ c ≤ 57) := by
    intro c hc
    rcases List.mem_append.mp hc with h1 | h1
    · exact Or.inr (hbsd c h1)
    rcases List.mem_cons.mp h1 with h1 | h1
    · exact Or.inl h1
    rcases List.mem_append.mp h1 with h1 | h1
    · exact Or.inr (hcsd c h1)
    rcases List.mem_cons.mp h1 with h1 | h1
    · exact Or.inl h1
    · exact Or.inr (hrsd c h1)
  have hulen : (bs ++ 59 :: (cs ++ 59 :: rs)).length =
      bs.length + cs.length + rs.length + 2 := by
    simp only [List.length_append, List.length_cons]
    omega
  have h9 : ¬ (27 :: 91 :: 60 :: ((bs ++ 59 :: (cs ++ 59 :: rs)) ++ t :: rest)
      : List Nat).length < 9 := by
    simp only [List.length_cons, List.length_append]
    omega
  have hpre : ¬((27 :: 91 :: 60 :: ((bs ++ 59 :: (cs ++ 59 :: rs)) ++ t :: rest)
      : List Nat).getD 0 0 ≠ 27 ∨
      (27 :: 91 :: 60 :: ((bs ++ 59 :: (cs ++ 59 :: rs)) ++ t :: rest)
      : List Nat).getD 1 0 ≠ 91 ∨
      (27 :: 91 :: 60 :: ((bs ++ 59 :: (cs ++ 59 :: rs)) ++ t :: rest)
      : List Nat).getD 2 0 ≠ 60) := by
    simp [List.getD]
  have hdrop : (27 :: 91 :: 60 :: ((bs ++ 59 :: (cs ++ 59 :: rs)) ++ t :: rest)
      : List Nat).drop 3 = (bs ++ 59 :: (cs ++ 59 :: rs)) ++ t :: rest := rfl
  have hterm : findTermAux ((27 :: 91 :: 60 :: ((bs ++ 59 :: (cs ++ 59 :: rs)) ++
      t :: rest) : List Nat).drop 3) 3 =
      some (3 + (bs ++ 59 :: (cs ++ 59 :: rs)).length) := by
    rw [hdrop]
    exact findTermAux_append t rest ht (bs ++ 59 :: (cs ++ 59 :: rs)) hu 3
  rw [ParseSGRMouse_term _ _ h9 hpre hterm]
  have hcons : (27 :: 91 :: 60 :: ((bs ++ 59 :: (cs ++ 59 :: rs)) ++ t :: rest)
      : List Nat) = (27 :: 91 :: 60 :: (bs ++ 59 :: (cs ++ 59 :: rs))) ++ t :: rest := by
    simp
  have hlen3 : 3 + (bs ++ 59 :: (cs ++ 59 :: rs)).length =
      (27 :: 91 :: 60 :: (bs ++ 59 :: (cs ++ 59 :: rs)) : List Nat).length := by
    simp only [List.length_cons]
    omega
  have htake : ((27 :: 91 :: 60 :: ((bs ++ 59 :: (cs ++ 59 :: rs)) ++ t :: rest)
      : List Nat).take (3 + (bs ++ 59 :: (cs ++ 59 :: rs)).length)).drop 3 =
      bs ++ 59 :: (cs ++ 59 :: rs) := by
    rw [hcons, hlen3, List.take_left]
    rfl
  have hgetD : (27 :: 91 :: 60 :: ((bs ++ 59 :: (cs ++ 59 :: rs)) ++ t :: rest)
      : List Nat).getD (3 + (bs ++ 59 :: (cs ++ 59 :: rs)).length) 0 = t := by
    rw [hcons, List.getD_append_right _ _ _ _ (by rw [hlen3])]
    rw [hlen3, Nat.sub_self]
    rfl
  rw [htake,
    splitSemicolon_three bs cs rs
      (fun h => by have := hbsd 59 h; omega)
      (fun h => by have := hcsd 59 h; omega)
      (fun h => by have := hrsd 59 h; omega)]
  show (match goAtoi bs, goAtoi cs, goAtoi rs with
       | some button, some col, some row =>
         some ((⟨button, col, row,
           (27 :: 91 :: 60 :: ((bs ++ 59 :: (cs ++ 59 :: rs)) ++ t :: rest)
           : List Nat).getD (3 + (bs ++ 59 :: (cs ++ 59 :: rs)).length) 0 == 77⟩
           : MouseEvent), 3 + (bs ++ 59 :: (cs ++ 59 :: rs)).length + 1)
       | _, _, _ => none) = _
  rw [goAtoi_eq_some bs hbs hbsd hbv, goAtoi_eq_some cs hcs hcsd hcv,
    goAtoi_eq_some rs hrs hrsd hrv]
  show some ((⟨digitsVal bs, digitsVal cs, digitsVal rs,
      (27 :: 91 :: 60 :: ((bs ++ 59 :: (cs ++ 59 :: rs)) ++ t :: rest)
      : List Nat).getD (3 + (bs ++ 59 :: (cs ++ 59 :: rs)).length) 0 == 77⟩
      : MouseEvent), 3 + (bs ++ 59 :: (cs ++ 59 :: rs)).length + 1) = _
  rw [hgetD, hulen]
  have hfin : 3 + (bs.length + cs.length + rs.length + 2) + 1 =
      bs.length + cs.length + rs.length + 6 := by omega
  rw [hfin]

theorem parseSGR_sound (data : List Nat) (ev : MouseEvent) (n : Nat)
    (h : ParseSGRMouse data = some (ev, n)) :
    ∃ bs cs rs t rest,
      data = 27 :: 91 :: 60 :: (bs ++ 59 :: (cs ++ 59 :: (rs ++ t :: rest))) ∧
      bs ≠ [] ∧ cs ≠ [] ∧ rs ≠ [] ∧
      (∀ c ∈ bs, 48 ≤ c ∧ c ≤ 57) ∧ (∀ c ∈ cs, 48 ≤ c ∧ c ≤ 57) ∧
      (∀ c ∈ rs, 48 ≤ c ∧ c ≤ 57) ∧ (t = 77 ∨ t = 109) ∧
      digitsVal bs < 2 ^ 63 ∧ digitsVal cs < 2 ^ 63 ∧ digitsVal rs < 2 ^ 63 ∧
      ev = ⟨digitsVal bs, digitsVal cs, digitsVal rs, t == 77⟩ ∧
      n = bs.length + cs.length + rs.length + 6 := by
  by_cases h9 : data.length < 9
  · unfold ParseSGRMouse at h
    rw [if_pos h9] at h
    cases h
  by_cases hpre : data.getD 0 0 ≠ 27 ∨ data.getD 1 0 ≠ 91 ∨ data.getD 2 0 ≠ 60
  · unfold ParseSGRMouse at h
    rw [if_neg h9, if_pos hpre] at h
    cases h
  rcases hterm0 : findTermAux (data.drop 3) 3 with _ | termIdx
  · unfold ParseSGRMouse at h
    rw [if_neg h9, if_neg hpre, hterm0] at h
    cases h
  rw [ParseSGRMouse_term data termIdx h9 hpre hterm0] at h
  push_neg at hpre
  obtain ⟨h27, h91, h60⟩ := hpre
  rcases data with _ | ⟨a, _ | ⟨b2, _ | ⟨c3, tail⟩⟩⟩
  · exact absurd (by simp) h9
  · exact absurd (by simp) h9
  · exact absurd (by simp) h9
  obtain rfl : a = 27 := by simpa [List.getD] using h27
  obtain rfl : b2 = 91 := by simpa [List.getD] using h91
  obtain rfl : c3 = 60 := by simpa [List.getD] using h60
  have hdrop : (27 :: 91 :: 60 :: tail : List Nat).drop 3 = tail := rfl
  rw [hdrop] at hterm0
  obtain ⟨u, t, v, htail, hidx, ht, hu⟩ := findTermAux_some tail 3 termIdx hterm0
  subst htail
  subst hidx
  have hcons : (27 :: 91 :: 60 :: (u ++ t :: v) : List Nat) =
      (27 :: 91 :: 60 :: u) ++ t :: v := by simp
  have hlen3 : 3 + u.length = (27 :: 91 :: 60 :: u : List Nat).length := by
    simp only [List.length_cons]
    omega
  have htake : ((27 :: 91 :: 60 :: (u ++ t :: v) : List Nat).take (3 + u.length)).drop 3
      = u := by
    rw [hcons, hlen3, List.take_left]
    rfl
  rw [htake] at h
  rcases hsplit : splitSemicolon u with _ | ⟨bs, _ | ⟨cs, _ | ⟨rs, _ | ⟨x4, parts4⟩⟩⟩⟩
  · rw [hsplit] at h
    exact Option.noConfusion h
  · rw [hsplit] at h
    exact Option.noConfusion h
  · rw [hsplit] at h
    exact Option.noConfusion h
  · rw [hsplit] at h
    have h2 : (match goAtoi bs, goAtoi cs, goAtoi rs with
        | some button, some col, some row =>
          some ((⟨button, col, row,
            (27 :: 91 :: 60 :: (u ++ t :: v) : List Nat).getD (3 + u.length) 0 == 77⟩
            : MouseEvent), 3 + u.length + 1)
        | _, _, _ => none) = some (ev, n) := h
    clear h
    rcases hb : goAtoi bs with _ | button
    · rw [hb] at h2
      exact Option.noConfusion h2
    rcases hc : goAtoi cs with _ | col
    · rw [hb, hc] at h2
      exact Option.noConfusion h2
    rcases hr : goAtoi rs with _ | row
    · rw [hb, hc, hr] at h2
      exact Option.noConfusion h2
    rw [hb, hc, hr] at h2
    obtain ⟨hbne, hbd, hbv, hbval⟩ := goAtoi_some bs button hb
    obtain ⟨hcne, hcd, hcv, hcval⟩ := goAtoi_some cs col hc
    obtain ⟨hrne, hrd, hrv, hrval⟩ := goAtoi_some rs row hr
    have hjoin : bs ++ 59 :: (cs ++ 59 :: rs) = u := by
      have hj := splitSemicolonAux_join u []
      rw [show splitSemicolonAux u [] = splitSemicolon u from rfl, hsplit] at hj
      simpa [joinSemi] using hj
    have hgetD : (27 :: 91 :: 60 :: (u ++ t :: v) : List Nat).getD (3 + u.length) 0
        = t := by
      rw [hcons, List.getD_append_right _ _ _ _ (by rw [hlen3])]
      rw [hlen3, Nat.sub_self]
      rfl
    rw [hgetD] at h2
    have hpair := Option.some.inj h2
    have hev : (⟨button, col, row, t == 77⟩ : MouseEvent) = ev := congrArg Prod.fst hpair
    have hn : 3 + u.length + 1 = n := congrArg Prod.snd hpair
    have hulen : u.length = bs.length + cs.length + rs.length + 2 := by
      rw [← hjoin]
      simp only [List.length_append, List.length_cons]
      omega
    refine ⟨bs, cs, rs, t, v, ?_, hbne, hcne, hrne, hbd, hcd, hrd, ht, hbv, hcv, hrv,
      ?_, ?_⟩
    · rw [← hjoin]
      simp
    · rw [← hev, hbval, hcval, hrval]
    · omega
  · rw [hsplit] at h
    exact Option.noConfusion h

/-- C7 (amended): the SGR mouse parser is total by construction (failure
is the in-band `none`, never an exception) and succeeds exactly on inputs
beginning with `ESC [ <` then exactly three semicolon-separated non-empty
decimal parameters and a terminator `M` (press) or `m` (release), with
each parameter value at most `2^63 - 1` — the `strconv.Atoi` signed
64-bit bound, which the original claim omitted.  On success it returns
the parsed event and the octet count up to and including the terminator;
truncated input, a non-digit non-semicolon byte before the terminator, a
parameter count other than three, an empty parameter, or an overflowing
parameter all fail. -/
theorem sgr_parser_characterisation :
    (∀ (bs cs rs : List Nat) (t : Nat) (rest : List Nat),
      bs ≠ [] → cs ≠ [] → rs ≠ [] →
      (∀ c ∈ bs, 48 ≤ c ∧ c ≤ 57) → (∀ c ∈ cs, 48 ≤ c ∧ c ≤ 57) →
      (∀ c ∈ rs, 48 ≤ c ∧ c ≤ 57) → (t = 77 ∨ t = 109) →
      digitsVal bs < 2 ^ 63 → digitsVal cs < 2 ^ 63 → digitsVal rs < 2 ^ 63 →
      ParseSGRMouse (27 :: 91 :: 60 :: (bs ++ 59 :: (cs ++ 59 :: (rs ++ t :: rest)))) =
        some (⟨digitsVal bs, digitsVal cs, digitsVal rs, t == 77⟩,
          bs.length + cs.length + rs.length + 6)) ∧
    (∀ (data : List Nat) (ev : MouseEvent) (n : Nat),
      ParseSGRMouse data = some (ev, n) →
      ∃ bs cs rs t rest,
        data = 27 :: 91 :: 60 :: (bs ++ 59 :: (cs ++ 59 :: (rs ++ t :: rest))) ∧
        bs ≠ [] ∧ cs ≠ [] ∧ rs ≠ [] ∧
        (∀ c ∈ bs, 48 ≤ c ∧ c ≤ 57) ∧ (∀ c ∈ cs, 48 ≤ c ∧ c ≤ 57) ∧
        (∀ c ∈ rs, 48 ≤ c ∧ c ≤ 57) ∧ (t = 77 ∨ t = 109) ∧
        digitsVal bs < 2 ^ 63 ∧ digitsVal cs < 2 ^ 63 ∧ digitsVal rs < 2 ^ 63 ∧
        ev = ⟨digitsVal bs, digitsVal cs, digitsVal rs, t == 77⟩ ∧
        n = bs.length + cs.length + rs.length + 6) :=
  ⟨fun bs cs rs t rest h1 h2 h3 h4 h5 h6 h7 h8 h9 h10 =>
    parseSGR_complete bs cs rs t rest h1 h2 h3 h4 h5 h6 h7 h8 h9 h10,
   parseSGR_sound⟩

/-- C7 witness: `ESC [ < 64 ; 1 ; 1 M` parses as a press of button 64 at
column 1, row 1, consuming 10 octets. -/
theorem sgr_parser_characterisation_witness :
    ParseSGRMouse (27 :: 91 :: 60 :: ([54, 52] ++ 59 :: ([49] ++ 59 :: ([49] ++ 77 :: [])))) =
      some (⟨digitsVal [54, 52], digitsVal [49], digitsVal [49], 77 == 77⟩,
        [54, 52].length + [49].length + [49].length + 6) :=
  sgr_parser_characterisation.1 [54, 52] [49] [49] 77 [] (by decide) (by decide)
    (by decide) (by decide) (by decide) (by decide) (by decide) (by decide) (by decide)
    (by decide)

/-- C7 counterexample: `ESC [ < 9223372036854775808 ; 1 ; 1 M` begins
with a three-decimal-parameter SGR sequence, yet the parser fails: the
first parameter equals `2^63`, which overflows `strconv.Atoi`'s signed
64-bit range — refuting the claim that such inputs always succeed. -/
theorem sgr_overflow_param_counterexample :
    ParseSGRMouse (27 :: 91 :: 60 ::
      ([57, 50, 50, 51, 51, 55, 50, 48, 51, 54, 56, 53, 52, 55, 55, 53, 56, 48, 56] ++
        59 :: ([49] ++ 59 :: ([49] ++ 77 :: [])))) = none ∧
    (∀ c ∈ [57, 50, 50, 51, 51, 55, 50, 48, 51, 54, 56, 53, 52, 55, 55, 53, 56, 48, 56],
      48 ≤ c ∧ c ≤ 57) ∧
    digitsVal [57, 50, 50, 51, 51, 55, 50, 48, 51, 54, 56, 53, 52, 55, 55, 53, 56, 48, 56] =
      2 ^ 63 := by
  refine ⟨by decide, by decide, by decide⟩

end Mhist
